import Mathlib

/-!
Verification development for the `fundsp_playground` audio program
(`src/main.rs`).  The pure parts of the program — the frequency resolver
`get_note_frequency`, the output-buffer filler `write_data`, and the
sequencer loop of `run` — are embedded shallowly below; floating-point
doubles are modelled as real numbers, and the stateful sample generator
of `write_data` as explicit state passing.
-/

namespace FundspPlayground

/-- The twelve pitch classes, as in the `BaseNote` enum of `main.rs`. -/
inductive BaseNote
  | C | Cis | D | Dis | E | F | Fis | G | Gis | A | Ais | H
deriving DecidableEq, Repr

/-- A note: base pitch class plus a signed octave (`struct Note`). -/
structure Note where
  note : BaseNote
  octave : ℤ
deriving DecidableEq, Repr

/-- An accord: an ordered list of notes (`struct Accord`). -/
structure Accord where
  notes : List Note

/-- The semitone index assigned to each pitch class by the `match` in
`get_note_frequency`. -/
def noteNumber : BaseNote → ℤ
  | .C => 0
  | .Cis => 1
  | .D => 2
  | .Dis => 3
  | .E => 4
  | .F => 5
  | .Fis => 6
  | .G => 7
  | .Gis => 8
  | .A => 9
  | .Ais => 10
  | .H => 11

/-- `get_note_frequency` from `main.rs`: the f64 computation
`440.0 * 2.0.pow((note_number + 12*octave - 9.0) / 12.0)` modelled over ℝ. -/
noncomputable def get_note_frequency (note : Note) : ℝ :=
  let note_number : ℝ := (noteNumber note.note : ℝ)
  let n : ℝ := note_number + 12 * (note.octave : ℝ)
  440 * (2 : ℝ) ^ ((n - 9) / 12)

/-- Pitch class from its 0–11 index (inverse of `noteNumber`),
used to state claims quantified over numeric pitch classes. -/
def pitchOfNat : ℕ → BaseNote
  | 0 => .C
  | 1 => .Cis
  | 2 => .D
  | 3 => .Dis
  | 4 => .E
  | 5 => .F
  | 6 => .Fis
  | 7 => .G
  | 8 => .Gis
  | 9 => .A
  | 10 => .Ais
  | _ => .H

theorem noteNumber_pitchOfNat {p : ℕ} (hp : p ≤ 11) :
    noteNumber (pitchOfNat p) = (p : ℤ) := by
  interval_cases p <;> rfl

theorem get_note_frequency_pos (note : Note) : 0 < get_note_frequency note := by
  unfold get_note_frequency
  positivity

theorem get_note_frequency_eq (b : BaseNote) (O : ℤ) :
    get_note_frequency ⟨b, O⟩ =
      440 * (2 : ℝ) ^ ((((noteNumber b : ℝ) + 12 * (O : ℝ)) - 9) / 12) := rfl

/-- Numeric bracket for `2 ^ (3/4)` used in the concert-pitch bound. -/
theorem two_rpow_three_quarters_bounds :
    (1.68176 : ℝ) ≤ (2 : ℝ) ^ ((3 : ℝ) / 4) ∧ (2 : ℝ) ^ ((3 : ℝ) / 4) ≤ 1.68183 := by
  have hx : (0 : ℝ) < (2 : ℝ) ^ ((3 : ℝ) / 4) :=
    Real.rpow_pos_of_pos (by norm_num) _
  have h4 : ((2 : ℝ) ^ ((3 : ℝ) / 4)) ^ (4 : ℕ) = 8 := by
    rw [← Real.rpow_natCast ((2 : ℝ) ^ ((3 : ℝ) / 4)) 4,
      ← Real.rpow_mul (by norm_num : (0 : ℝ) ≤ 2),
      show (3 : ℝ) / 4 * ((4 : ℕ) : ℝ) = ((3 : ℕ) : ℝ) by norm_num,
      Real.rpow_natCast]
    norm_num
  constructor
  · refine le_of_pow_le_pow_left₀ (n := 4) (by norm_num) (le_of_lt hx) ?_
    rw [h4]; norm_num
  · refine le_of_pow_le_pow_left₀ (n := 4) (by norm_num) (by norm_num) ?_
    rw [h4]; norm_num

theorem get_note_frequency_C0_bounds :
    |get_note_frequency ⟨BaseNote.C, 0⟩ - 261.626| ≤ 0.01 := by
  have hval : get_note_frequency ⟨BaseNote.C, 0⟩ =
      440 * ((2 : ℝ) ^ ((3 : ℝ) / 4))⁻¹ := by
    rw [get_note_frequency_eq]
    rw [show (((noteNumber BaseNote.C : ℝ) + 12 * ((0 : ℤ) : ℝ)) - 9) / 12 =
        -((3 : ℝ) / 4) by norm_num [noteNumber]]
    rw [Real.rpow_neg (by norm_num : (0 : ℝ) ≤ 2)]
  obtain ⟨hlo, hhi⟩ := two_rpow_three_quarters_bounds
  have hx : (0 : ℝ) < (2 : ℝ) ^ ((3 : ℝ) / 4) :=
    Real.rpow_pos_of_pos (by norm_num) _
  have hy : (0 : ℝ) < ((2 : ℝ) ^ ((3 : ℝ) / 4))⁻¹ := inv_pos.2 hx
  have hxy : (2 : ℝ) ^ ((3 : ℝ) / 4) * ((2 : ℝ) ^ ((3 : ℝ) / 4))⁻¹ = 1 :=
    mul_inv_cancel₀ (ne_of_gt hx)
  rw [hval, abs_le]
  constructor <;> nlinarith [hxy, hlo, hhi, hy, hx]

/-- Frequencies are strictly increasing in the semitone index, at a fixed
octave. -/
theorem get_note_frequency_lt {b b' : BaseNote} (O : ℤ)
    (h : noteNumber b < noteNumber b') :
    get_note_frequency ⟨b, O⟩ < get_note_frequency ⟨b', O⟩ := by
  rw [get_note_frequency_eq, get_note_frequency_eq]
  have hbb : ((noteNumber b : ℝ)) < (noteNumber b' : ℝ) := by exact_mod_cast h
  have hexp : (((noteNumber b : ℝ) + 12 * (O : ℝ)) - 9) / 12 <
      (((noteNumber b' : ℝ) + 12 * (O : ℝ)) - 9) / 12 := by
    apply div_lt_div_of_pos_right _ (by norm_num)
    linarith
  exact mul_lt_mul_of_pos_left
    ((Real.rpow_lt_rpow_left_iff (by norm_num : (1 : ℝ) < 2)).2 hexp)
    (by norm_num)

/-- C3: for every pitch class and every integer octave, `get_note_frequency`
equals `440 * 2 ^ (((pitchClass + 12*octave) - 9) / 12)`; in particular A in
octave 0 resolves to exactly 440 Hz, and C in octave 0 is within 0.01 of
261.626 Hz. -/
theorem claim_C3_frequency_formula :
    (∀ (b : BaseNote) (O : ℤ),
      get_note_frequency ⟨b, O⟩ =
        440 * (2 : ℝ) ^ ((((noteNumber b : ℝ) + 12 * (O : ℝ)) - 9) / 12))
    ∧ get_note_frequency ⟨BaseNote.A, 0⟩ = 440
    ∧ |get_note_frequency ⟨BaseNote.C, 0⟩ - 261.626| ≤ 0.01 := by
  refine ⟨get_note_frequency_eq, ?_, get_note_frequency_C0_bounds⟩
  rw [get_note_frequency_eq]
  rw [show (((noteNumber BaseNote.A : ℝ) + 12 * ((0 : ℤ) : ℝ)) - 9) / 12 =
      (0 : ℝ) by norm_num [noteNumber]]
  rw [Real.rpow_zero]
  norm_num

/-- C6: octave invariance — raising the octave by one doubles the
resolved frequency, for every pitch class and octave. -/
theorem claim_C6_octave_invariance (b : BaseNote) (O : ℤ) :
    get_note_frequency ⟨b, O + 1⟩ = 2 * get_note_frequency ⟨b, O⟩ := by
  rw [get_note_frequency_eq, get_note_frequency_eq]
  have hcast : ((O + 1 : ℤ) : ℝ) = (O : ℝ) + 1 := by push_cast; ring
  rw [hcast,
    show (((noteNumber b : ℝ) + 12 * ((O : ℝ) + 1)) - 9) / 12 =
      (((noteNumber b : ℝ) + 12 * (O : ℝ)) - 9) / 12 + 1 by ring,
    Real.rpow_add (by norm_num : (0 : ℝ) < 2), Real.rpow_one]
  ring

/-- C7: pitch-class monotonicity — within any octave, the frequency of
pitch class P is strictly below that of pitch class P+1, for P in 0..10. -/
theorem claim_C7_pitch_monotonicity (P : ℕ) (O : ℤ) (hP : P ≤ 10) :
    get_note_frequency ⟨pitchOfNat P, O⟩ <
      get_note_frequency ⟨pitchOfNat (P + 1), O⟩ := by
  apply get_note_frequency_lt
  rw [noteNumber_pitchOfNat (by omega), noteNumber_pitchOfNat (by omega)]
  exact_mod_cast Nat.lt_succ_self P

theorem claim_C7_pitch_monotonicity_witness :
    (0 : ℕ) ≤ 10 ∧
      get_note_frequency ⟨pitchOfNat 0, 0⟩ < get_note_frequency ⟨pitchOfNat 1, 0⟩ :=
  ⟨by decide, claim_C7_pitch_monotonicity 0 0 (by decide)⟩

/-- C8: frequency resolution is total — `get_note_frequency` is a pure
function defined on every note (all pitch classes, any signed octave) and
always yields a (positive) frequency, with no error path. -/
theorem claim_C8_total_positive :
    ∀ (b : BaseNote) (O : ℤ), 0 < get_note_frequency ⟨b, O⟩ :=
  fun b O => get_note_frequency_pos ⟨b, O⟩

/-! ### Sequencer (the playback loop of `run`)

The control-thread loop of `run` is embedded as a trace of observable
events: each `net.replace`/`net.commit` pair installs a unit built from one
frequency, and each `std::thread::sleep` suspends for a number of
milliseconds.  The loop body computes `length = 4 * 60000 / bpm`, installs
one plucked unit per note of the accord, then sleeps for `length`. -/

/-- An observable action of the control thread: installing a unit with a
given fundamental frequency into the replaceable slot, or sleeping. -/
inductive Event
  | install (frequency : ℝ)
  | sleep (ms : ℕ)

/-- The events produced by one iteration of `for accord in asdf` in `run`:
one install per note of the accord (in order), then a sleep of
`4 * 60000 / bpm` milliseconds. -/
noncomputable def accordEvents (bpm : ℕ) (accord : Accord) : List Event :=
  let length := 4 * 60000 / bpm
  (accord.notes.map (fun n => Event.install (get_note_frequency n)))
    ++ [Event.sleep length]

/-- The whole playback loop of `run` over a schedule of accords. -/
noncomputable def run_playback (bpm : ℕ) (schedule : List Accord) : List Event :=
  schedule.flatMap (accordEvents bpm)

/-- The tempo hardcoded in `run` (`let bpm = 160`). -/
def bpm : ℕ := 160

/-- The schedule actually iterated by `run` (`let asdf = vec![Accord { .. }]`):
a single accord of C octave 0, E octave 0, C octave 1. -/
def asdf : List Accord :=
  [⟨[⟨BaseNote.C, 0⟩, ⟨BaseNote.E, 0⟩, ⟨BaseNote.C, 1⟩]⟩]

/-- The sleep durations of an event trace, in order. -/
def sleeps : List Event → List ℕ
  | [] => []
  | Event.sleep ms :: rest => ms :: sleeps rest
  | Event.install _ :: rest => sleeps rest

/-- The content of the replaceable slot after processing an event trace,
starting from a given slot content: each install overwrites the slot with
its unit's frequency. -/
def slotAfter (slot : Option ℝ) : List Event → Option ℝ
  | [] => slot
  | Event.install f :: rest => slotAfter (some f) rest
  | Event.sleep _ :: rest => slotAfter slot rest

theorem sleeps_append (l₁ l₂ : List Event) :
    sleeps (l₁ ++ l₂) = sleeps l₁ ++ sleeps l₂ := by
  induction l₁ with
  | nil => rfl
  | cons e rest ih => cases e <;> simp [sleeps, ih]

theorem sleeps_map_install (l : List Note) :
    sleeps (l.map (fun n => Event.install (get_note_frequency n))) = [] := by
  induction l with
  | nil => rfl
  | cons n rest ih => simp [sleeps, ih]

theorem sleeps_accordEvents (b : ℕ) (acc : Accord) :
    sleeps (accordEvents b acc) = [4 * 60000 / b] := by
  unfold accordEvents
  rw [sleeps_append, sleeps_map_install]
  rfl

theorem slotAfter_append (slot : Option ℝ) (l₁ l₂ : List Event) :
    slotAfter slot (l₁ ++ l₂) = slotAfter (slotAfter slot l₁) l₂ := by
  induction l₁ generalizing slot with
  | nil => rfl
  | cons e rest ih => cases e <;> simp [slotAfter, ih]

theorem slotAfter_map_install (l : List Note) (hne : l ≠ []) (slot : Option ℝ) :
    slotAfter slot (l.map (fun n => Event.install (get_note_frequency n))) =
      some (get_note_frequency (l.getLast hne)) := by
  induction l generalizing slot with
  | nil => exact absurd rfl hne
  | cons n rest ih =>
    cases rest with
    | nil => rfl
    | cons m t =>
      rw [List.map_cons]
      show slotAfter (some (get_note_frequency n))
          ((m :: t).map (fun n => Event.install (get_note_frequency n))) = _
      rw [ih (List.cons_ne_nil m t),
        List.getLast_cons (List.cons_ne_nil m t)]

/-- C4 fails as stated: with a one-note entry at BPM 160 the sequencer
sleeps 1500 ms (the hardcoded `4 * 60000 / bpm`), not the claimed
`1 * 60000 / 160 = 375` ms. -/
theorem claim_C4_counterexample :
    sleeps (run_playback 160 [⟨[⟨BaseNote.C, 0⟩]⟩]) = [1500]
    ∧ (1500 : ℕ) ≠ 1 * 60000 / 160 := by
  constructor
  · show sleeps (accordEvents 160 ⟨[⟨BaseNote.C, 0⟩]⟩ ++ []) = [1500]
    rw [List.append_nil, sleeps_accordEvents]
  · decide

/-- C4 (amended): for every schedule entry the sequencer sleeps for the
fixed length `4 * 60000 / BPM` milliseconds (1500 ms at BPM 160) after
installing the entry's units and before advancing; the schedule entries
carry no per-entry beat count that the loop consults. -/
theorem claim_C4_amended (b : ℕ) (schedule : List Accord) :
    sleeps (run_playback b schedule) =
      List.replicate schedule.length (4 * 60000 / b)
    ∧ ∀ acc : Accord, accordEvents b acc =
        (acc.notes.map (fun n => Event.install (get_note_frequency n)))
          ++ [Event.sleep (4 * 60000 / b)] := by
  refine ⟨?_, fun acc => rfl⟩
  induction schedule with
  | nil => rfl
  | cons acc rest ih =>
    rw [show run_playback b (acc :: rest) =
        accordEvents b acc ++ run_playback b rest from rfl,
      sleeps_append, sleeps_accordEvents, ih, List.length_cons,
      List.replicate_succ]
    rfl

/-- C9: a chord entry installs one unit per note, in order, into the same
slot with no sleep in between (the single sleep comes after all installs),
so after the per-chord loop the slot holds the unit built from the chord's
last note. -/
theorem claim_C9_chord_last_note (b : ℕ) (acc : Accord) (slot : Option ℝ)
    (hne : acc.notes ≠ []) :
    accordEvents b acc =
      (acc.notes.map (fun n => Event.install (get_note_frequency n)))
        ++ [Event.sleep (4 * 60000 / b)]
    ∧ slotAfter slot (accordEvents b acc) =
        some (get_note_frequency (acc.notes.getLast hne)) := by
  refine ⟨rfl, ?_⟩
  show slotAfter slot
      ((acc.notes.map (fun n => Event.install (get_note_frequency n)))
        ++ [Event.sleep (4 * 60000 / b)]) = _
  rw [slotAfter_append, slotAfter_map_install acc.notes hne slot]
  rfl

theorem claim_C9_chord_last_note_witness :
    accordEvents 160 ⟨[⟨BaseNote.C, 0⟩, ⟨BaseNote.E, 0⟩, ⟨BaseNote.C, 1⟩]⟩ =
      (([⟨BaseNote.C, 0⟩, ⟨BaseNote.E, 0⟩, ⟨BaseNote.C, 1⟩] : List Note).map
        (fun n => Event.install (get_note_frequency n)))
        ++ [Event.sleep (4 * 60000 / 160)]
    ∧ slotAfter none
        (accordEvents 160 ⟨[⟨BaseNote.C, 0⟩, ⟨BaseNote.E, 0⟩, ⟨BaseNote.C, 1⟩]⟩) =
        some (get_note_frequency
          (([⟨BaseNote.C, 0⟩, ⟨BaseNote.E, 0⟩, ⟨BaseNote.C, 1⟩] : List Note).getLast
            (List.cons_ne_nil _ _))) :=
  claim_C9_chord_last_note 160 ⟨[⟨BaseNote.C, 0⟩, ⟨BaseNote.E, 0⟩, ⟨BaseNote.C, 1⟩]⟩
    none (List.cons_ne_nil _ _)

/-! ### Real-time callback driver (`write_data`)

`write_data` iterates `output.chunks_mut(channels)`; each chunk (frame)
pulls one stereo sample from the stateful closure `next_sample`, converts
both halves with `T::from_sample`, and writes the left value to channels
with even index and the right value to channels with odd index.  The
mutable closure is embedded as explicit state passing over a state type
`σ`, the `T::from_sample` conversion as an abstract `conv : ℝ → α`, and
the panic of `chunks_mut` on chunk size zero as `none`. -/

def write_data {α σ : Type} (channels : ℕ) (conv : ℝ → α)
    (next_sample : σ → (ℝ × ℝ) × σ) : List α → σ → Option (List α × σ)
  | output, s =>
    if _h : channels = 0 then none
    else
      match output with
      | [] => some ([], s)
      | x :: xs =>
        let p := next_sample s
        let frame := (List.range (min channels (x :: xs).length)).map
          (fun channel => if channel % 2 = 0 then conv p.1.1 else conv p.1.2)
        match write_data channels conv next_sample ((x :: xs).drop channels) p.2 with
        | none => none
        | some (rest, s') => some (frame ++ rest, s')
  termination_by output _ => output.length
  decreasing_by simp [List.length_drop]; omega

/-- The generator state after `k` pulls. -/
def pullState {σ : Type} (next_sample : σ → (ℝ × ℝ) × σ) (s : σ) : ℕ → σ
  | 0 => s
  | k + 1 => (next_sample (pullState next_sample s k)).2

/-- The stereo pair produced by the `k`-th pull (0-based). -/
def pullPair {σ : Type} (next_sample : σ → (ℝ × ℝ) × σ) (s : σ) (k : ℕ) : ℝ × ℝ :=
  (next_sample (pullState next_sample s k)).1

/-- Number of frames (`chunks_mut` chunks) in a buffer of `len` samples at
`channels` channels: `⌈len / channels⌉`. -/
def numFrames (len channels : ℕ) : ℕ := (len + channels - 1) / channels

/-- Modelled from the spec: the expected contents of the output buffer —
sample `i` belongs to frame `i / channels` and channel `i % channels`;
even channels receive the converted left half of that frame's pulled pair,
odd channels the converted right half. -/
def interleaved {α σ : Type} (channels : ℕ) (conv : ℝ → α)
    (next_sample : σ → (ℝ × ℝ) × σ) (s : σ) (len : ℕ) : List α :=
  (List.range len).map (fun i =>
    if (i % channels) % 2 = 0 then conv (pullPair next_sample s (i / channels)).1
    else conv (pullPair next_sample s (i / channels)).2)

theorem pullState_succ_shift {σ : Type} (next_sample : σ → (ℝ × ℝ) × σ)
    (s : σ) (k : ℕ) :
    pullState next_sample s (k + 1) = pullState next_sample (next_sample s).2 k := by
  induction k with
  | zero => rfl
  | succ k ih =>
    show (next_sample (pullState next_sample s (k + 1))).2 =
      (next_sample (pullState next_sample (next_sample s).2 k)).2
    rw [ih]

theorem pullPair_succ_shift {σ : Type} (next_sample : σ → (ℝ × ℝ) × σ)
    (s : σ) (k : ℕ) :
    pullPair next_sample s (k + 1) = pullPair next_sample (next_sample s).2 k := by
  unfold pullPair
  rw [pullState_succ_shift]

theorem numFrames_zero (c : ℕ) (hc : c ≠ 0) : numFrames 0 c = 0 :=
  Nat.div_eq_of_lt (by omega)

theorem numFrames_succ (len c : ℕ) (hc : c ≠ 0) (hlen : len ≠ 0) :
    numFrames len c = numFrames (len - c) c + 1 := by
  unfold numFrames
  rcases Nat.lt_or_ge len c with h | h
  · have h1 : len - c = 0 := by omega
    have h2 : (len + c - 1) / c = 1 := Nat.div_eq_of_lt_le (by omega) (by omega)
    have h3 : (0 + c - 1) / c = 0 := Nat.div_eq_of_lt (by omega)
    rw [h1, h2, h3]
  · have h1 : len + c - 1 = (len - c + c - 1) + c := by omega
    rw [h1, Nat.add_div_right _ (by omega)]

theorem write_data_nil {α σ : Type} (c : ℕ) (hc : c ≠ 0) (conv : ℝ → α)
    (next_sample : σ → (ℝ × ℝ) × σ) (s : σ) :
    write_data c conv next_sample ([] : List α) s = some ([], s) := by
  unfold write_data
  simp [hc]

theorem write_data_cons {α σ : Type} (c : ℕ) (hc : c ≠ 0) (conv : ℝ → α)
    (next_sample : σ → (ℝ × ℝ) × σ) (x : α) (xs : List α) (s : σ)
    (rest : List α) (s' : σ)
    (hrec : write_data c conv next_sample ((x :: xs).drop c) (next_sample s).2 =
      some (rest, s')) :
    write_data c conv next_sample (x :: xs) s =
      some (((List.range (min c (x :: xs).length)).map
        (fun channel => if channel % 2 = 0 then conv (next_sample s).1.1
          else conv (next_sample s).1.2)) ++ rest, s') := by
  conv_lhs => rw [write_data]
  simp [hc, hrec]

theorem interleaved_split {α σ : Type} (c : ℕ) (hc : c ≠ 0) (conv : ℝ → α)
    (next_sample : σ → (ℝ × ℝ) × σ) (s : σ) (n : ℕ) (hn : n ≠ 0) :
    interleaved c conv next_sample s n =
      ((List.range (min c n)).map
        (fun channel => if channel % 2 = 0 then conv (next_sample s).1.1
          else conv (next_sample s).1.2))
      ++ interleaved c conv next_sample (next_sample s).2 (n - c) := by
  unfold interleaved
  have hsplit : n = min c n + (n - c) := by omega
  rw [show List.range n = List.range (min c n) ++ (List.range (n - c)).map (min c n + ·) by
      rw [← List.range_add, ← hsplit]]
  rw [List.map_append, List.map_map]
  congr 1
  · apply List.map_congr_left
    intro i hi
    have hic : i < c := lt_of_lt_of_le (List.mem_range.1 hi) (min_le_left c n)
    rw [Nat.mod_eq_of_lt hic, Nat.div_eq_of_lt hic]
    rfl
  · apply List.map_congr_left
    intro j hj
    have hcn : c ≤ n := by
      rcases le_or_lt c n with h | h
      · exact h
      · exfalso
        have h0 : n - c = 0 := by omega
        rw [h0] at hj
        simp at hj
    have hmin : min c n = c := min_eq_left hcn
    show (if ((min c n + j) % c) % 2 = 0
        then conv (pullPair next_sample s ((min c n + j) / c)).1
        else conv (pullPair next_sample s ((min c n + j) / c)).2) = _
    rw [hmin]
    have h1 : (c + j) % c = j % c := by
      rw [Nat.add_comm, Nat.add_mod_right]
    have h2 : (c + j) / c = j / c + 1 := by
      rw [Nat.add_comm, Nat.add_div_right _ (by omega)]
    rw [h1, h2, pullPair_succ_shift]

/-- `write_data` fills the whole buffer by frames: sample `i` is the
converted left (even channel index) or right (odd channel index) half of
the pair pulled for frame `i / channels`, and the generator is advanced
exactly once per frame. -/
theorem write_data_eq_interleaved {α σ : Type} (c : ℕ) (hc : c ≠ 0)
    (conv : ℝ → α) (next_sample : σ → (ℝ × ℝ) × σ) :
    ∀ (n : ℕ) (output : List α) (s : σ), output.length = n →
      write_data c conv next_sample output s =
        some (interleaved c conv next_sample s n,
              pullState next_sample s (numFrames n c)) := by
  intro n
  induction n using Nat.strong_induction_on with
  | _ n ih =>
    intro output s hlen
    cases output with
    | nil =>
      have h0 : n = 0 := by simpa using hlen.symm
      subst h0
      rw [write_data_nil c hc, numFrames_zero c hc]
      rfl
    | cons x xs =>
      have hn : n ≠ 0 := by
        rw [← hlen]
        simp
      have hdroplen : ((x :: xs).drop c).length = n - c := by
        rw [List.length_drop, hlen]
      have hrec := ih (n - c) (by omega) ((x :: xs).drop c) (next_sample s).2 hdroplen
      rw [write_data_cons c hc conv next_sample x xs s _ _ hrec]
      rw [interleaved_split c hc conv next_sample s n hn,
        numFrames_succ n c hc hn, pullState_succ_shift, hlen]

/-- C5: for every output buffer, channel count ≥ 1, and frame, `write_data`
pulls `next_sample` exactly once per frame of `channels` samples (the final
generator state is the ⌈len/channels⌉-fold advance) and writes the converted
left half of that frame's pair to every even channel index and the converted
right half to every odd channel index. -/
theorem claim_C5_parity_routing {α σ : Type} (channels : ℕ) (conv : ℝ → α)
    (next_sample : σ → (ℝ × ℝ) × σ) (output : List α) (s : σ)
    (hc : 1 ≤ channels) :
    write_data channels conv next_sample output s =
      some ((List.range output.length).map (fun i =>
          if (i % channels) % 2 = 0
          then conv (pullPair next_sample s (i / channels)).1
          else conv (pullPair next_sample s (i / channels)).2),
        pullState next_sample s ((output.length + channels - 1) / channels)) :=
  write_data_eq_interleaved channels (by omega) conv next_sample
    output.length output s rfl

theorem claim_C5_parity_routing_witness :
    (1 : ℕ) ≤ 2 ∧
      write_data 2 (fun _ : ℝ => (0 : ℕ))
          (fun s : ℕ => (((0 : ℝ), (0 : ℝ)), s + 1)) [0, 0, 0, 0, 0] 0 =
        some ([0, 0, 0, 0, 0], 3) :=
  ⟨by decide,
    claim_C5_parity_routing 2 (fun _ : ℝ => (0 : ℕ))
      (fun s : ℕ => (((0 : ℝ), (0 : ℝ)), s + 1)) [0, 0, 0, 0, 0] 0 (by decide)⟩

/-- C10: `write_data` with `channels = 0` hits the `chunks_mut` panic
(modelled as `none`); for every `channels ≥ 1` it succeeds, writes a buffer
of exactly the input's length (trailing partial frame included), and its
result depends only on the buffer's length, i.e. every element of the
output slice is overwritten. -/
theorem claim_C10_zero_channels_totality (α σ : Type) (conv : ℝ → α)
    (next_sample : σ → (ℝ × ℝ) × σ) (output output' : List α) (s : σ)
    (channels : ℕ) (hc : 1 ≤ channels) (hlen : output.length = output'.length) :
    write_data 0 conv next_sample output s = none
    ∧ (∃ written s', write_data channels conv next_sample output s =
        some (written, s') ∧ written.length = output.length)
    ∧ write_data channels conv next_sample output s =
        write_data channels conv next_sample output' s := by
  have hc0 : channels ≠ 0 := by omega
  refine ⟨?_, ?_, ?_⟩
  · unfold write_data
    simp
  · rw [write_data_eq_interleaved channels hc0 conv next_sample
      output.length output s rfl]
    refine ⟨_, _, rfl, ?_⟩
    simp [interleaved]
  · rw [write_data_eq_interleaved channels hc0 conv next_sample
      output.length output s rfl,
      write_data_eq_interleaved channels hc0 conv next_sample
      output'.length output' s rfl,
      hlen]

theorem claim_C10_zero_channels_totality_witness :
    (1 : ℕ) ≤ 2 ∧ List.length [(0 : ℕ), 0, 0] = List.length [(1 : ℕ), 2, 3] ∧
    (write_data 0 (fun _ : ℝ => (0 : ℕ))
        (fun s : ℕ => (((0 : ℝ), (0 : ℝ)), s + 1)) [0, 0, 0] 0 = none
      ∧ (∃ written s', write_data 2 (fun _ : ℝ => (0 : ℕ))
          (fun s : ℕ => (((0 : ℝ), (0 : ℝ)), s + 1)) [0, 0, 0] 0 =
            some (written, s') ∧ written.length = List.length [(0 : ℕ), 0, 0])
      ∧ write_data 2 (fun _ : ℝ => (0 : ℕ))
          (fun s : ℕ => (((0 : ℝ), (0 : ℝ)), s + 1)) [0, 0, 0] 0 =
        write_data 2 (fun _ : ℝ => (0 : ℕ))
          (fun s : ℕ => (((0 : ℝ), (0 : ℝ)), s + 1)) [1, 2, 3] 0) :=
  ⟨by decide, by decide,
    claim_C10_zero_channels_totality ℕ ℕ (fun _ : ℝ => (0 : ℕ))
      (fun s : ℕ => (((0 : ℝ), (0 : ℝ)), s + 1)) [0, 0, 0] [1, 2, 3] 0 2
      (by decide) (by decide)⟩

end FundspPlayground
